import Mathlib

/-!
Verification of the voice-auth-engine core against its specification.

The Python sources are shallowly embedded as Lean definitions:

* `src/voice_auth_engine/math.py` — `normalized_edit_distance` (Wagner-Fischer
  one-row DP), `pairwise_distances`, `select_medoid`;
* `src/voice_auth_engine/audio_validator.py` — `validate_audio`;
* `src/voice_auth_engine/embedding_extractor.py` — `Embedding.to_bytes` /
  `Embedding.from_bytes` (modelled at the level of 32-bit patterns and bytes);
* `src/voice_auth_engine/passphrase_auth.py` — the Enroller / Verifier logic
  (`add_sample`, `enroll`, `verify`), with the model-driven feature pipeline
  (audio decode, VAD, ASR, embedding extraction) abstracted as a parameter;
* `src/voice_auth_engine/phoneme_extractor.py` — `Phoneme.select_reference`.

Python floats are modelled as `ℚ` where the code only performs field and
comparison operations (edit distances, thresholds, durations), and as `ℝ`
where square roots occur (cosine similarity).  Mathlib's `levenshtein` with
`Levenshtein.defaultCost` serves as the specification-side definition of
"Levenshtein distance with unit insert/delete/substitute costs".
-/

namespace VoiceAuth

/-! ## Math kernel: normalized edit distance (`math.py`, lines 35-69)

The source computes a Wagner-Fischer one-row DP: the shorter sequence is put
on the row axis, `prev` is initialised to `range(len_a + 1)`, and for each
element `y` of the longer sequence (1-based index `j`) a new row is produced
with `curr[0] = j` and
`curr[i] = min(curr[i-1] + 1, prev[i] + 1, prev[i-1] + cost)`. -/

variable {α : Type*} [DecidableEq α]

/-- Inner cell loop of the Wagner-Fischer row update: each triple carries the
current element `x` of the row-axis sequence together with the two cells
`prev[i-1]` and `prev[i]` of the previous row; `left` is `curr[i-1]`. -/
def dpCells (y : α) : List (α × ℕ × ℕ) → ℕ → List ℕ
  | [], _ => []
  | (x, d0, d1) :: rest, left =>
    let c := min (left + 1) (min (d1 + 1) (d0 + (if x = y then 0 else 1)))
    c :: dpCells y rest c

/-- One row update of the DP: `curr[0] = j`, then the inner cell loop over the
row-axis sequence `a` paired with adjacent cells of the previous row. -/
def dpRow (a : List α) (prev : List ℕ) (y : α) (j : ℕ) : List ℕ :=
  j :: dpCells y (a.zip (prev.zip prev.tail)) j

/-- Outer loop of the DP (`for j in range(1, len_b + 1)` in the source):
processes the column-axis sequence element by element, carrying the 1-based
column index `j` and the previous row. -/
def dpLoop (a : List α) : ℕ → List ℕ → List α → List ℕ
  | _, prev, [] => prev
  | j, prev, y :: ys => dpLoop a (j + 1) (dpRow a prev y (j + 1)) ys

/-- Embedding of `normalized_edit_distance` from `math.py`: returns `0` when
both sequences are empty, otherwise swaps so that the shorter sequence is on
the row axis, runs the DP, and divides the final cell `prev[len_a]` by
`max(len_a, len_b)`. -/
def normalized_edit_distance (a b : List α) : ℚ :=
  if a.length = 0 ∧ b.length = 0 then 0
  else
    let p := if b.length < a.length then (b, a) else (a, b)
    let s := p.1
    let t := p.2
    let row := dpLoop s 0 (List.range (s.length + 1)) t
    ((row.getD s.length 0 : ℕ) : ℚ) / ((max s.length t.length : ℕ) : ℚ)

/-- Unit-cost Levenshtein distance (the specification-side definition,
via Mathlib). -/
def lev (xs ys : List α) : ℕ :=
  levenshtein Levenshtein.defaultCost xs ys

theorem lev_nil_left (ys : List α) : lev [] ys = ys.length := by
  induction ys with
  | nil => simp [lev]
  | cons y ys ih => simp [lev, levenshtein_nil_cons] at ih ⊢; omega

theorem lev_nil_right (xs : List α) : lev xs [] = xs.length := by
  induction xs with
  | nil => simp [lev]
  | cons x xs ih => simp [lev, levenshtein_cons_nil] at ih ⊢; omega

theorem lev_cons_cons (x : α) (xs : List α) (y : α) (ys : List α) :
    lev (x :: xs) (y :: ys) =
      min (1 + lev xs (y :: ys))
        (min (1 + lev (x :: xs) ys) ((if x = y then 0 else 1) + lev xs ys)) := by
  simp [lev, levenshtein_cons_cons]

set_option maxHeartbeats 1600000 in
theorem lev_snoc_snoc :
    ∀ (n : ℕ) (xs ys : List α) (x y : α), xs.length + ys.length ≤ n →
      lev (xs ++ [x]) (ys ++ [y]) =
        min (1 + lev xs (ys ++ [y]))
          (min (1 + lev (xs ++ [x]) ys) ((if x = y then 0 else 1) + lev xs ys)) := by
  intro n
  induction n with
  | zero =>
    intro xs ys x y h
    have hxs : xs = [] := by cases xs <;> simp_all
    have hys : ys = [] := by cases ys <;> simp_all
    subst hxs; subst hys
    simpa using lev_cons_cons x [] y []
  | succ n ih =>
    intro xs ys x y h
    match xs, ys with
    | [], [] => simpa using lev_cons_cons x [] y []
    | [], y' :: ys' =>
      have h1 : ([] : List α).length + ys'.length ≤ n := by simp at h ⊢; omega
      have hx := ih [] ys' x y h1
      simp only [List.nil_append] at hx
      simp only [List.cons_append, List.nil_append]
      rw [lev_cons_cons, lev_cons_cons, hx]
      simp only [lev_nil_left, List.length_append, List.length_cons,
        List.length_nil]
      omega
    | x' :: xs', [] =>
      have h1 : xs'.length + ([] : List α).length ≤ n := by simp at h ⊢; omega
      have hx := ih xs' [] x y h1
      simp only [List.nil_append] at hx
      simp only [List.cons_append, List.nil_append]
      rw [lev_cons_cons, lev_cons_cons, hx]
      simp only [lev_nil_right, List.length_append, List.length_cons,
        List.length_nil]
      omega
    | x' :: xs', y' :: ys' =>
      simp only [List.length_cons] at h
      have h1 := ih xs' (y' :: ys') x y (by simp; omega)
      have h2 := ih (x' :: xs') ys' x y (by simp; omega)
      have h3 := ih xs' ys' x y (by omega)
      simp only [List.cons_append] at h1 h2 h3 ⊢
      rw [lev_cons_cons x' (xs' ++ [x]) y' (ys' ++ [y]), h1, h2, h3,
        lev_cons_cons x' xs' y' (ys' ++ [y]),
        lev_cons_cons x' (xs' ++ [x]) y' ys',
        lev_cons_cons x' xs' y' ys']
      simp only [← min_add_add_left]
      apply le_antisymm <;> simp only [le_min_iff, min_le_iff] <;> omega

theorem lev_reverse :
    ∀ (n : ℕ) (xs ys : List α), xs.length + ys.length ≤ n →
      lev xs.reverse ys.reverse = lev xs ys := by
  intro n
  induction n with
  | zero =>
    intro xs ys h
    have hxs : xs = [] := by cases xs <;> simp_all
    have hys : ys = [] := by cases ys <;> simp_all
    simp [hxs, hys]
  | succ n ih =>
    intro xs ys h
    match xs, ys with
    | [], ys => simp [lev_nil_left]
    | x :: xs', [] => simp [lev_nil_right]
    | x :: xs', y :: ys' =>
      simp only [List.length_cons] at h
      have r1 := ih xs' (y :: ys') (by simp; omega)
      have r2 := ih (x :: xs') ys' (by simp; omega)
      have r3 := ih xs' ys' (by omega)
      simp only [List.reverse_cons] at r1 r2
      simp only [List.reverse_cons]
      rw [lev_snoc_snoc (xs'.reverse.length + ys'.reverse.length) xs'.reverse
        ys'.reverse x y (by simp), r1, r2, r3, lev_cons_cons]

theorem lev_symm :
    ∀ (n : ℕ) (xs ys : List α), xs.length + ys.length ≤ n →
      lev xs ys = lev ys xs := by
  intro n
  induction n with
  | zero =>
    intro xs ys h
    have hxs : xs = [] := by cases xs <;> simp_all
    have hys : ys = [] := by cases ys <;> simp_all
    simp [hxs, hys]
  | succ n ih =>
    intro xs ys h
    match xs, ys with
    | [], ys => simp [lev_nil_left, lev_nil_right]
    | x :: xs', [] => simp [lev_nil_left, lev_nil_right]
    | x :: xs', y :: ys' =>
      simp only [List.length_cons] at h
      rw [lev_cons_cons, lev_cons_cons,
        ih xs' (y :: ys') (by simp; omega),
        ih (x :: xs') ys' (by simp; omega),
        ih xs' ys' (by omega)]
      have hc : (if x = y then 0 else 1) = (if y = x then 0 else 1) := by
        simp [eq_comm]
      rw [hc]
      omega

theorem lev_le_max :
    ∀ (n : ℕ) (xs ys : List α), xs.length + ys.length ≤ n →
      lev xs ys ≤ max xs.length ys.length := by
  intro n
  induction n with
  | zero =>
    intro xs ys h
    have hxs : xs = [] := by cases xs <;> simp_all
    have hys : ys = [] := by cases ys <;> simp_all
    simp [hxs, hys, lev_nil_left]
  | succ n ih =>
    intro xs ys h
    match xs, ys with
    | [], ys => simp [lev_nil_left]
    | x :: xs', [] => simp [lev_nil_right]
    | x :: xs', y :: ys' =>
      simp only [List.length_cons] at h
      rw [lev_cons_cons]
      have h3 := ih xs' ys' (by omega)
      have hc : (if x = y then 0 else 1) ≤ 1 := by split <;> omega
      simp only [List.length_cons]
      omega

/-- Specification of the tail of a DP row: the cell at each position of
`rest` (continuing an already-consumed reversed position `acc`) holds the
Levenshtein distance from the reversed consumed part to the reversed
already-processed column part `bjr`. -/
def rowTail (bjr : List α) : List α → List α → List ℕ
  | _, [] => []
  | acc, x :: rest => lev (x :: acc) bjr :: rowTail bjr (x :: acc) rest

theorem rowTail_nil :
    ∀ (rest acc : List α), rowTail [] acc rest = List.range' (acc.length + 1) rest.length := by
  intro rest
  induction rest with
  | nil => intro acc; simp [rowTail]
  | cons x rest ih =>
    intro acc
    simp only [rowTail, lev_nil_right, List.length_cons, List.range'_succ, ih (x :: acc)]

theorem range_eq_row_zero (a : List α) :
    List.range (a.length + 1) = lev ([] : List α) [] :: rowTail [] [] a := by
  rw [List.range_eq_range', List.range'_succ, rowTail_nil]
  simp [lev]

theorem dpCells_spec (y : α) (bjr : List α) :
    ∀ (rest acc : List α),
      dpCells y (rest.zip ((lev acc bjr :: rowTail bjr acc rest).zip
          (rowTail bjr acc rest))) (lev acc (y :: bjr)) = rowTail (y :: bjr) acc rest := by
  intro rest
  induction rest with
  | nil => intro acc; simp [dpCells, rowTail]
  | cons x rest ih =>
    intro acc
    simp only [rowTail, List.zip_cons_cons, dpCells]
    have hc :
        min (lev acc (y :: bjr) + 1)
          (min (lev (x :: acc) bjr + 1) (lev acc bjr + (if x = y then 0 else 1))) =
          lev (x :: acc) (y :: bjr) := by
      rw [lev_cons_cons]
      omega
    rw [hc]
    exact congrArg (lev (x :: acc) (y :: bjr) :: ·) (ih (x :: acc))

theorem dpRow_spec (a : List α) (bjr : List α) (y : α) :
    dpRow a (lev [] bjr :: rowTail bjr [] a) y (bjr.length + 1) =
      lev [] (y :: bjr) :: rowTail (y :: bjr) [] a := by
  have hj : bjr.length + 1 = lev ([] : List α) (y :: bjr) := by
    rw [lev_nil_left]; simp
  simp only [dpRow, List.tail_cons, hj]
  exact congrArg (lev ([] : List α) (y :: bjr) :: ·) (dpCells_spec y bjr a [])

theorem dpLoop_spec (a : List α) :
    ∀ (ys bjr : List α),
      dpLoop a bjr.length (lev [] bjr :: rowTail bjr [] a) ys =
        lev [] (ys.reverse ++ bjr) :: rowTail (ys.reverse ++ bjr) [] a := by
  intro ys
  induction ys with
  | nil => intro bjr; simp [dpLoop]
  | cons y ys ih =>
    intro bjr
    have hstep := dpRow_spec a bjr y
    have hy : ys.reverse ++ (y :: bjr) = (y :: ys).reverse ++ bjr := by
      simp
    calc dpLoop a bjr.length (lev [] bjr :: rowTail bjr [] a) (y :: ys)
        = dpLoop a (bjr.length + 1)
            (dpRow a (lev [] bjr :: rowTail bjr [] a) y (bjr.length + 1)) ys := rfl
      _ = dpLoop a (y :: bjr).length (lev [] (y :: bjr) :: rowTail (y :: bjr) [] a) ys := by
          rw [hstep]; rfl
      _ = lev [] (ys.reverse ++ (y :: bjr)) :: rowTail (ys.reverse ++ (y :: bjr)) [] a :=
          ih (y :: bjr)
      _ = lev [] ((y :: ys).reverse ++ bjr) :: rowTail ((y :: ys).reverse ++ bjr) [] a := by
          rw [hy]

theorem row_getD (bjr : List α) :
    ∀ (rest acc : List α),
      (lev acc bjr :: rowTail bjr acc rest).getD rest.length 0 =
        lev (rest.reverse ++ acc) bjr := by
  intro rest
  induction rest with
  | nil => intro acc; simp
  | cons x rest ih =>
    intro acc
    have hl : (rest.reverse ++ [x]) ++ acc = rest.reverse ++ (x :: acc) := by
      simp
    simp only [rowTail, List.length_cons, List.getD_cons_succ, List.reverse_cons, hl]
    exact ih (x :: acc)

/-- The DP in `normalized_edit_distance` computes exactly the unit-cost
Levenshtein distance divided by the maximum length (with `0/0 = 0` in the
both-empty case, as the source returns `0.0` there). -/
theorem normalized_edit_distance_eq (a b : List α) :
    normalized_edit_distance a b =
      ((lev a b : ℕ) : ℚ) / ((max a.length b.length : ℕ) : ℚ) := by
  unfold normalized_edit_distance
  by_cases h0 : a.length = 0 ∧ b.length = 0
  · rw [if_pos h0]
    obtain ⟨ha, hb⟩ := h0
    rw [List.length_eq_zero] at ha hb
    subst ha; subst hb
    simp [lev]
  · rw [if_neg h0]
    by_cases hlt : b.length < a.length
    · simp only [if_pos hlt]
      have hrow := dpLoop_spec b a ([] : List α)
      simp only [List.length_nil, List.append_nil] at hrow
      rw [range_eq_row_zero b, hrow, row_getD a.reverse b []]
      rw [List.append_nil]
      have h1 : lev b.reverse a.reverse = lev b a :=
        lev_reverse (b.length + a.length) b a (by simp)
      have h2 : lev b a = lev a b :=
        lev_symm (b.length + a.length) b a (by omega)
      rw [h1, h2, Nat.max_comm]
    · simp only [if_neg hlt]
      have hrow := dpLoop_spec a b ([] : List α)
      simp only [List.length_nil, List.append_nil] at hrow
      rw [range_eq_row_zero a, hrow, row_getD b.reverse a []]
      rw [List.append_nil]
      have h1 : lev a.reverse b.reverse = lev a b :=
        lev_reverse (a.length + b.length) a b (by simp)
      rw [h1]

theorem lev_comm (a b : List α) : lev a b = lev b a :=
  lev_symm (a.length + b.length) a b le_rfl

theorem normalized_edit_distance_symm (a b : List α) :
    normalized_edit_distance a b = normalized_edit_distance b a := by
  rw [normalized_edit_distance_eq, normalized_edit_distance_eq, lev_comm, Nat.max_comm]

theorem normalized_edit_distance_nonneg (a b : List α) :
    0 ≤ normalized_edit_distance a b := by
  rw [normalized_edit_distance_eq]
  positivity

theorem normalized_edit_distance_le_one (a b : List α) :
    normalized_edit_distance a b ≤ 1 := by
  rw [normalized_edit_distance_eq]
  rcases Nat.eq_zero_or_pos (max a.length b.length) with h | h
  · rw [h]
    simp
  · rw [div_le_one (by exact_mod_cast h)]
    exact_mod_cast lev_le_max (a.length + b.length) a b le_rfl

theorem normalized_edit_distance_nil_left (b : List α) (hb : b ≠ []) :
    normalized_edit_distance [] b = 1 := by
  rw [normalized_edit_distance_eq, lev_nil_left]
  have hpos : 0 < b.length := List.length_pos.mpr hb
  rw [List.length_nil, Nat.max_eq_right (Nat.zero_le _)]
  exact div_self (by exact_mod_cast hpos.ne')

theorem normalized_edit_distance_nil_right (a : List α) (ha : a ≠ []) :
    normalized_edit_distance a [] = 1 := by
  rw [normalized_edit_distance_symm]
  exact normalized_edit_distance_nil_left a ha

theorem lev_self (a : List α) : lev a a = 0 := by
  induction a with
  | nil => simp [lev]
  | cons x xs ih =>
    rw [lev_cons_cons, if_pos rfl]
    omega

theorem normalized_edit_distance_self (a : List α) :
    normalized_edit_distance a a = 0 := by
  rw [normalized_edit_distance_eq, lev_self]
  simp

theorem normalized_edit_distance_single_ne (x y : α) (h : x ≠ y) :
    normalized_edit_distance [x] [y] = 1 := by
  rw [normalized_edit_distance_eq]
  have h1 : lev [x] [y] = 1 := by
    rw [lev_cons_cons, if_neg h, lev_nil_left, lev_nil_right, lev_nil_left]
    simp
  rw [h1]
  norm_num

/-! ## Math kernel: pairwise distances and medoid (`math.py`, lines 72-103) -/

/-- Embedding of `pairwise_distances` from `math.py`.  The source initialises
an `n x n` zero matrix, computes the upper triangle (`j > i`) with the
distance function and mirrors it; the net content of entry `(i, j)` is
therefore `0` on the diagonal and the normalized edit distance of the two
sequences off it (the mirrored lower-triangle entry `d(j, i)` equals
`d(i, j)` by symmetry of the distance). -/
def pairwise_distances (seqs : List (List α)) : List (List ℚ) :=
  (List.range seqs.length).map fun i =>
    (List.range seqs.length).map fun j =>
      if i = j then 0
      else normalized_edit_distance (seqs.getD i []) (seqs.getD j [])

theorem pairwise_distances_entry (seqs : List (List α)) (i j : ℕ)
    (hi : i < seqs.length) (hj : j < seqs.length) :
    ((pairwise_distances seqs).getD i []).getD j 0 =
      if i = j then 0
      else normalized_edit_distance (seqs.getD i []) (seqs.getD j []) := by
  have h1 : (pairwise_distances seqs).getD i [] =
      (List.range seqs.length).map fun j =>
        if i = j then 0
        else normalized_edit_distance (seqs.getD i []) (seqs.getD j []) := by
    unfold pairwise_distances
    rw [List.getD_eq_getElem _ _ (by simpa using hi)]
    simp
  rw [h1, List.getD_eq_getElem _ _ (by simpa using hj)]
  simp

/-- Loop state of `select_medoid` from `math.py`: `i` is the enumeration
index, `bi` the current best index, and the third component the current best
sum (`none` models the initial `float("inf")`, which every first row sum
compares strictly below). -/
def medoidGo : ℕ → ℕ → Option ℚ → List (List ℚ) → ℕ
  | _, bi, _, [] => bi
  | i, bi, none, row :: rest => medoidGo (i + 1) i (some row.sum) rest
  | i, bi, some bs, row :: rest =>
    if row.sum < bs then medoidGo (i + 1) i (some row.sum) rest
    else medoidGo (i + 1) bi (some bs) rest

/-- Embedding of `select_medoid` from `math.py`. -/
def select_medoid (distances : List (List ℚ)) : ℕ :=
  medoidGo 0 0 none distances

theorem medoidGo_spec :
    ∀ (rest : List (List ℚ)) (i bi : ℕ) (bs : ℚ),
      (medoidGo i bi (some bs) rest = bi ∧
        ∀ k, k < rest.length → bs ≤ (rest.getD k []).sum) ∨
      (∃ k, k < rest.length ∧ medoidGo i bi (some bs) rest = i + k ∧
        (rest.getD k []).sum < bs ∧
        (∀ m, m < k → (rest.getD k []).sum < (rest.getD m []).sum) ∧
        (∀ m, k < m → m < rest.length → (rest.getD k []).sum ≤ (rest.getD m []).sum)) := by
  intro rest
  induction rest with
  | nil =>
    intro i bi bs
    left
    exact ⟨rfl, fun k hk => absurd hk (by simp)⟩
  | cons row rest ih =>
    intro i bi bs
    by_cases hlt : row.sum < bs
    · rw [show medoidGo i bi (some bs) (row :: rest) =
        medoidGo (i + 1) i (some row.sum) rest from by simp [medoidGo, hlt]]
      rcases ih (i + 1) i row.sum with ⟨heq, hmin⟩ | ⟨k, hk, heq, hval, hbefore, hafter⟩
      · right
        refine ⟨0, by simp, by omega, by simpa using hlt, ?_, ?_⟩
        · intro m hm; omega
        · intro m hm0 hmlen
          obtain ⟨m', rfl⟩ : ∃ m', m = m' + 1 := ⟨m - 1, by omega⟩
          simpa using hmin m' (by simpa using hmlen)
      · right
        refine ⟨k + 1, by simpa using hk, by omega, ?_, ?_, ?_⟩
        · simp only [List.getD_cons_succ]
          exact lt_trans hval hlt
        · intro m hm
          rcases Nat.eq_zero_or_pos m with rfl | hmpos
          · simpa using hval
          · obtain ⟨m', rfl⟩ : ∃ m', m = m' + 1 := ⟨m - 1, by omega⟩
            simpa using hbefore m' (by omega)
        · intro m hm0 hmlen
          obtain ⟨m', rfl⟩ : ∃ m', m = m' + 1 := ⟨m - 1, by omega⟩
          simpa using hafter m' (by omega) (by simpa using hmlen)
    · rw [show medoidGo i bi (some bs) (row :: rest) =
        medoidGo (i + 1) bi (some bs) rest from by simp [medoidGo, hlt]]
      rcases ih (i + 1) bi bs with ⟨heq, hmin⟩ | ⟨k, hk, heq, hval, hbefore, hafter⟩
      · left
        refine ⟨heq, ?_⟩
        intro k hk
        rcases Nat.eq_zero_or_pos k with rfl | hkpos
        · simpa using not_lt.mp hlt
        · obtain ⟨k', rfl⟩ : ∃ k', k = k' + 1 := ⟨k - 1, by omega⟩
          simpa using hmin k' (by simpa using hk)
      · right
        refine ⟨k + 1, by simpa using hk, by omega, ?_, ?_, ?_⟩
        · simpa using hval
        · intro m hm
          rcases Nat.eq_zero_or_pos m with rfl | hmpos
          · simp only [List.getD_cons_succ, List.getD_cons_zero]
            exact lt_of_lt_of_le hval (not_lt.mp hlt)
          · obtain ⟨m', rfl⟩ : ∃ m', m = m' + 1 := ⟨m - 1, by omega⟩
            simpa using hbefore m' (by omega)
        · intro m hm0 hmlen
          obtain ⟨m', rfl⟩ : ∃ m', m = m' + 1 := ⟨m - 1, by omega⟩
          simpa using hafter m' (by omega) (by simpa using hmlen)

/-! ## Phoneme consistency validation

The function `validate_phoneme_consistency` (and its error type) is imported
by `passphrase_auth.py` from `voice_auth_engine.passphrase_validator`, but its
definition is not present in the sources provided; only the specification
describes it. -/

deriving instance DecidableEq for Except

/-- Generic first-hit scan over a list of indices: returns the first `some`
produced by `f`, in list order. -/
def firstHit {β : Type*} (f : ℕ → Option β) : List ℕ → Option β
  | [] => none
  | i :: is =>
    match f i with
    | some v => some v
    | none => firstHit f is

theorem firstHit_eq_none {β : Type*} (f : ℕ → Option β) :
    ∀ l : List ℕ, firstHit f l = none ↔ ∀ x ∈ l, f x = none := by
  intro l
  induction l with
  | nil => simp [firstHit]
  | cons i is ih =>
    cases hf : f i with
    | some v => simp [firstHit, hf]
    | none => simp [firstHit, hf, ih]

theorem firstHit_eq_some {β : Type*} (f : ℕ → Option β) (v : β) :
    ∀ l : List ℕ, firstHit f l = some v ↔
      ∃ k, k < l.length ∧ f (l.getD k 0) = some v ∧
        ∀ m, m < k → f (l.getD m 0) = none := by
  intro l
  induction l with
  | nil => simp [firstHit]
  | cons i is ih =>
    cases hf : f i with
    | some w =>
      simp only [firstHit, hf]
      constructor
      · intro hv
        exact ⟨0, by simp, by simpa [hf] using hv, fun m hm => absurd hm (by omega)⟩
      · rintro ⟨k, hk, hfk, hbefore⟩
        rcases Nat.eq_zero_or_pos k with rfl | hkpos
        · simpa [hf] using hfk
        · have := hbefore 0 hkpos
          simp [hf] at this
    | none =>
      simp only [firstHit, hf, ih]
      constructor
      · rintro ⟨k, hk, hfk, hbefore⟩
        refine ⟨k + 1, by simpa using hk, by simpa using hfk, ?_⟩
        intro m hm
        rcases Nat.eq_zero_or_pos m with rfl | hmpos
        · simpa using hf
        · obtain ⟨m', rfl⟩ : ∃ m', m = m' + 1 := ⟨m - 1, by omega⟩
          simpa using hbefore m' (by omega)
      · rintro ⟨k, hk, hfk, hbefore⟩
        rcases Nat.eq_zero_or_pos k with rfl | hkpos
        · simp [hf] at hfk
        · obtain ⟨k', rfl⟩ : ∃ k', k = k' + 1 := ⟨k - 1, by omega⟩
          refine ⟨k', by simpa using hk, by simpa using hfk, ?_⟩
          intro m hm
          simpa using hbefore (m + 1) (by omega)

/-- Modelled from the spec: row-major scan of the strict upper triangle of an
`n x n` distance matrix for the first entry exceeding the threshold
(spec §4.8: "fail with `PhonemeInconsistency(i, j, d)` on the first pair
`(i<j)` whose `d > τ`. Scan order is row-major by `i`, then `j`"). -/
def phonemeConsistencyScan (d : ℕ → ℕ → ℚ) (τ : ℚ) (n : ℕ) : Option (ℕ × ℕ × ℚ) :=
  firstHit (fun i =>
      firstHit (fun j => if τ < d i j then some (i, j, d i j) else none)
        (List.range' (i + 1) (n - (i + 1))))
    (List.range n)

theorem mem_range'_iff (s n m : ℕ) : m ∈ List.range' s n ↔ s ≤ m ∧ m < s + n := by
  rw [List.mem_range']
  constructor
  · rintro ⟨i, hi, rfl⟩
    omega
  · intro h
    exact ⟨m - s, by omega, by omega⟩

theorem range_getD (n k : ℕ) (hk : k < n) : (List.range n).getD k 0 = k := by
  rw [List.getD_eq_getElem _ _ (by simpa using hk)]
  simp

theorem range'_getD (s n k : ℕ) (hk : k < n) : (List.range' s n).getD k 0 = s + k := by
  rw [List.getD_eq_getElem _ _ (by simpa using hk)]
  simp

theorem phonemeConsistencyScan_none (d : ℕ → ℕ → ℚ) (τ : ℚ) (n : ℕ) :
    phonemeConsistencyScan d τ n = none ↔
      ∀ i j, i < j → j < n → d i j ≤ τ := by
  unfold phonemeConsistencyScan
  rw [firstHit_eq_none]
  constructor
  · intro h i j hij hjn
    have hi : i ∈ List.range n := by simp; omega
    have hrow := (firstHit_eq_none _ _).mp (h i hi)
    have hj : j ∈ List.range' (i + 1) (n - (i + 1)) := by
      rw [mem_range'_iff]
      omega
    have := hrow j hj
    by_contra hgt
    simp [not_le.mp hgt] at this
  · intro h i hi
    rw [firstHit_eq_none]
    intro j hj
    rw [mem_range'_iff] at hj
    have := h i j (by omega) (by omega)
    simp [not_lt.mpr this]

theorem phonemeConsistencyScan_some (d : ℕ → ℕ → ℚ) (τ : ℚ) (n : ℕ)
    (i j : ℕ) (v : ℚ) :
    phonemeConsistencyScan d τ n = some (i, j, v) ↔
      (i < j ∧ j < n ∧ v = d i j ∧ τ < d i j ∧
        ∀ p q, p < q → q < n → (p < i ∨ (p = i ∧ q < j)) → d p q ≤ τ) := by
  unfold phonemeConsistencyScan
  rw [firstHit_eq_some]
  constructor
  · rintro ⟨k, hk, hrow, hbefore⟩
    simp only [List.length_range] at hk
    rw [range_getD n k hk] at hrow
    rw [firstHit_eq_some] at hrow
    obtain ⟨m, hm, hcell, hmbefore⟩ := hrow
    simp only [List.length_range'] at hm
    rw [range'_getD _ _ _ hm] at hcell
    by_cases hlt : τ < d k (k + 1 + m)
    · rw [if_pos hlt] at hcell
      simp only [Option.some_inj, Prod.mk.injEq] at hcell
      obtain ⟨rfl, rfl, rfl⟩ := hcell
      refine ⟨by omega, by omega, rfl, hlt, ?_⟩
      intro p q hpq hqn hless
      rcases hless with hpi | ⟨rfl, hqj⟩
      · have hp := hbefore p (by omega)
        rw [range_getD n p (by omega)] at hp
        rw [firstHit_eq_none] at hp
        have hq : q ∈ List.range' (p + 1) (n - (p + 1)) := by
          rw [mem_range'_iff]; omega
        have := hp q hq
        by_contra hgt
        simp [not_le.mp hgt] at this
      · have hq := hmbefore (q - (p + 1)) (by omega)
        rw [range'_getD _ _ _ (by omega)] at hq
        have hqe : p + 1 + (q - (p + 1)) = q := by omega
        rw [hqe] at hq
        by_contra hgt
        simp [not_le.mp hgt] at hq
    · rw [if_neg hlt] at hcell
      exact absurd hcell (by simp)
  · rintro ⟨hij, hjn, rfl, hlt, hmin⟩
    refine ⟨i, by simpa using lt_trans hij hjn, ?_, ?_⟩
    · rw [range_getD n i (by omega), firstHit_eq_some]
      refine ⟨j - (i + 1), by simp only [List.length_range']; omega, ?_, ?_⟩
      · rw [range'_getD _ _ _ (by omega)]
        have hje : i + 1 + (j - (i + 1)) = j := by omega
        rw [hje, if_pos hlt]
      · intro m hm
        rw [range'_getD _ _ _ (by omega)]
        have := hmin i (i + 1 + m) (by omega) (by omega) (Or.inr ⟨rfl, by omega⟩)
        simp [not_lt.mpr this]
    · intro p hp
      rw [range_getD n p (by omega), firstHit_eq_none]
      intro q hq
      rw [mem_range'_iff] at hq
      have := hmin p q (by omega) (by omega) (Or.inl (by omega))
      simp [not_lt.mpr this]

/-- Modelled from the spec: `validate_phoneme_consistency` (imported by
`passphrase_auth.py` from `voice_auth_engine.passphrase_validator`, definition
absent from the provided sources).  Per spec §4.8 it computes the pairwise
normalized edit-distance matrix and fails with `PhonemeInconsistency (i, j, d)`
on the first pair `(i < j)` with `d > τ` in row-major scan order, succeeding
iff every pair is within `τ`. -/
def validate_phoneme_consistency (samples : List (List String)) (τ : ℚ) :
    Except (ℕ × ℕ × ℚ) Unit :=
  match phonemeConsistencyScan
      (fun i j => ((pairwise_distances samples).getD i []).getD j 0) τ
      samples.length with
  | some e => .error e
  | none => .ok ()

/-- Success characterisation of the (spec-modelled) consistency check. -/
theorem validate_phoneme_consistency_ok_iff (samples : List (List String)) (τ : ℚ) :
    validate_phoneme_consistency samples τ = .ok () ↔
      ∀ i j, i < j → j < samples.length →
        normalized_edit_distance (samples.getD i []) (samples.getD j []) ≤ τ := by
  have hd : ∀ p q, p < q → q < samples.length →
      ((pairwise_distances samples).getD p []).getD q 0 =
        normalized_edit_distance (samples.getD p []) (samples.getD q []) := by
    intro p q hpq hqn
    rw [pairwise_distances_entry samples p q (by omega) hqn, if_neg (by omega)]
  unfold validate_phoneme_consistency
  cases hscan : phonemeConsistencyScan
      (fun i j => ((pairwise_distances samples).getD i []).getD j 0) τ
      samples.length with
  | none =>
    apply iff_of_true rfl
    have h := (phonemeConsistencyScan_none _ τ samples.length).mp hscan
    intro i j hij hjn
    rw [← hd i j hij hjn]
    exact h i j hij hjn
  | some e =>
    apply iff_of_false (by simp)
    intro hall
    have : phonemeConsistencyScan
        (fun i j => ((pairwise_distances samples).getD i []).getD j 0) τ
        samples.length = none := by
      rw [phonemeConsistencyScan_none]
      intro i j hij hjn
      rw [hd i j hij hjn]
      exact hall i j hij hjn
    rw [hscan] at this
    exact Option.noConfusion this

/-- Failure characterisation of the (spec-modelled) consistency check: the
reported pair is the first violating pair in row-major order. -/
theorem validate_phoneme_consistency_error_iff (samples : List (List String))
    (τ : ℚ) (i j : ℕ) (v : ℚ) :
    validate_phoneme_consistency samples τ = .error (i, j, v) ↔
      (i < j ∧ j < samples.length ∧
        v = normalized_edit_distance (samples.getD i []) (samples.getD j []) ∧
        τ < v ∧
        ∀ p q, p < q → q < samples.length →
          (p < i ∨ (p = i ∧ q < j)) →
          normalized_edit_distance (samples.getD p []) (samples.getD q []) ≤ τ) := by
  have hd : ∀ p q, p < q → q < samples.length →
      ((pairwise_distances samples).getD p []).getD q 0 =
        normalized_edit_distance (samples.getD p []) (samples.getD q []) := by
    intro p q hpq hqn
    rw [pairwise_distances_entry samples p q (by omega) hqn, if_neg (by omega)]
  have hkey : ∀ i j v, phonemeConsistencyScan
      (fun i j => ((pairwise_distances samples).getD i []).getD j 0) τ
      samples.length = some (i, j, v) ↔
      (i < j ∧ j < samples.length ∧
        v = normalized_edit_distance (samples.getD i []) (samples.getD j []) ∧
        τ < v ∧
        ∀ p q, p < q → q < samples.length →
          (p < i ∨ (p = i ∧ q < j)) →
          normalized_edit_distance (samples.getD p []) (samples.getD q []) ≤ τ) := by
    intro i j v
    rw [phonemeConsistencyScan_some]
    constructor
    · rintro ⟨hij, hjn, hveq, hlt, hmin⟩
      refine ⟨hij, hjn, hveq.trans (hd i j hij hjn), by rw [hveq]; exact hlt, ?_⟩
      intro p q hpq hqn hlex
      rw [← hd p q hpq hqn]
      exact hmin p q hpq hqn hlex
    · rintro ⟨hij, hjn, hveq, hlt, hmin⟩
      refine ⟨hij, hjn, hveq.trans (hd i j hij hjn).symm,
        by rw [hd i j hij hjn, ← hveq]; exact hlt, ?_⟩
      intro p q hpq hqn hlex
      rw [hd p q hpq hqn]
      exact hmin p q hpq hqn hlex
  unfold validate_phoneme_consistency
  cases hscan : phonemeConsistencyScan
      (fun i j => ((pairwise_distances samples).getD i []).getD j 0) τ
      samples.length with
  | none =>
    apply iff_of_false (by simp)
    intro hRHS
    have := (hkey i j v).mpr hRHS
    rw [hscan] at this
    exact Option.noConfusion this
  | some e =>
    obtain ⟨i0, j0, v0⟩ := e
    constructor
    · intro heq
      simp only [Except.error.injEq, Prod.mk.injEq] at heq
      obtain ⟨rfl, rfl, rfl⟩ := heq
      exact (hkey i0 j0 v0).mp hscan
    · intro hRHS
      have := (hkey i j v).mpr hRHS
      rw [hscan] at this
      simp only [Option.some_inj, Prod.mk.injEq] at this
      obtain ⟨rfl, rfl, rfl⟩ := this
      rfl


/-! ## Embedding serialization (`embedding_extractor.py`, lines 29-41)

Float32 values are modelled by their 32-bit patterns (naturals below `2^32`);
`to_bytes` (`values.tobytes()`) lays each value out as four bytes in
little-endian order with no header, and `from_bytes` (`np.frombuffer` with
`dtype=np.float32`) reads any byte string back four bytes at a time, failing
only when the byte count is not a multiple of four and performing no
dimension check. -/

def embedding_to_bytes (values : List ℕ) : List ℕ :=
  (values.map fun w => [w % 256, w / 256 % 256, w / 256 ^ 2 % 256, w / 256 ^ 3 % 256]).flatten

def embedding_from_bytes : List ℕ → Option (List ℕ)
  | [] => some []
  | b0 :: b1 :: b2 :: b3 :: rest =>
    (embedding_from_bytes rest).map fun ws =>
      (b0 + 256 * b1 + 256 ^ 2 * b2 + 256 ^ 3 * b3) :: ws
  | _ => none

theorem embedding_to_bytes_length (values : List ℕ) :
    (embedding_to_bytes values).length = 4 * values.length := by
  induction values with
  | nil => simp [embedding_to_bytes]
  | cons w ws ih =>
    simp [embedding_to_bytes] at ih ⊢
    omega

theorem embedding_to_bytes_cons (w : ℕ) (ws : List ℕ) :
    embedding_to_bytes (w :: ws) =
      w % 256 :: w / 256 % 256 :: w / 256 ^ 2 % 256 :: w / 256 ^ 3 % 256 ::
        embedding_to_bytes ws := by
  simp [embedding_to_bytes]

theorem embedding_roundtrip (values : List ℕ) (hw : ∀ w ∈ values, w < 2 ^ 32) :
    embedding_from_bytes (embedding_to_bytes values) = some values := by
  induction values with
  | nil => simp [embedding_to_bytes, embedding_from_bytes]
  | cons w ws ih =>
    have hw' : ∀ x ∈ ws, x < 2 ^ 32 := fun x hx => hw x (List.mem_cons_of_mem w hx)
    have hwlt : w < 2 ^ 32 := hw w (List.mem_cons_self w ws)
    rw [embedding_to_bytes_cons, embedding_from_bytes, ih hw']
    simp only [Option.map_some', Option.some_inj, List.cons.injEq]
    exact ⟨by omega, trivial⟩

theorem embedding_from_bytes_total :
    ∀ (k : ℕ) (bs : List ℕ), bs.length = 4 * k →
      ∃ ws, embedding_from_bytes bs = some ws ∧ ws.length = k := by
  intro k
  induction k with
  | zero =>
    intro bs h
    have hnil : bs = [] := List.length_eq_zero.mp (by omega)
    subst hnil
    exact ⟨[], rfl, rfl⟩
  | succ k ih =>
    intro bs h
    match bs, h with
    | b0 :: b1 :: b2 :: b3 :: rest, h =>
      simp only [List.length_cons] at h
      obtain ⟨ws, hws, hlen⟩ := ih rest (by omega)
      refine ⟨(b0 + 256 * b1 + 256 ^ 2 * b2 + 256 ^ 3 * b3) :: ws, ?_, by simp [hlen]⟩
      simp [embedding_from_bytes, hws]

/-! ## Audio validation (`audio_validator.py`, lines 43-64) -/

structure AudioData where
  samples : List ℤ
  sample_rate : ℚ

inductive AudioValidationError
  | emptyAudio
  | insufficientDuration (duration_seconds min_seconds : ℚ)
deriving DecidableEq

/-- Embedding of `validate_audio`: empty check first, then the duration
threshold check with strict `<`. -/
def validate_audio (audio : AudioData) (min_seconds : ℚ) :
    Except AudioValidationError Unit :=
  if audio.samples.length = 0 then .error .emptyAudio
  else
    let duration_seconds : ℚ := (audio.samples.length : ℚ) / audio.sample_rate
    if duration_seconds < min_seconds then
      .error (.insufficientDuration duration_seconds min_seconds)
    else .ok ()

/-- Helper discriminator: the call failed with `InsufficientDurationError`. -/
def failsInsufficientDuration (r : Except AudioValidationError Unit) : Bool :=
  match r with
  | .error (.insufficientDuration _ _) => true
  | _ => false

/-! ## PassphraseAuth, Enroller and Verifier (`passphrase_auth.py`)

The model-driven feature pipeline `extract_passphrase` (audio decode, VAD,
ASR, phoneme extraction, embedding extraction) wraps external neural models
and is abstracted as a function parameter producing either a pipeline error
or an (embedding, phoneme sequence) pair.  Embedding values are modelled in
`ℝ` (cosine similarity takes square roots); phoneme sequences are lists of
symbol strings and edit-distance scores are in `ℚ`.

The Python `PassphraseAuthEnroller.__init__` and
`PassphraseAuthVerifier.__init__` store `self._auth = auth` — a reference to
the configurator object, not a copy — so `verify` and `enroll` read
`self._auth.threshold` / `self._auth._phoneme_threshold` at call time.  The
embedding makes this explicit by passing the configurator state current at
the moment of the call to `verify` and `enroll`. -/

structure PassphraseAuth where
  threshold : ℝ
  min_speech_seconds : ℚ
  min_unique_phonemes : Option ℕ
  phoneme_threshold : Option ℚ

open Classical in
/-- Embedding of `cosine_similarity` from `math.py`: `np.dot` over
`np.linalg.norm` products, with an exact-zero guard on either norm. -/
noncomputable def cosine_similarity (a b : List ℝ) : ℝ :=
  let norm_a := Real.sqrt ((a.map fun x => x * x).sum)
  let norm_b := Real.sqrt ((b.map fun x => x * x).sum)
  if norm_a = 0 ∨ norm_b = 0 then 0
  else (List.zipWith (fun x y => x * y) a b).sum / (norm_a * norm_b)

structure VerificationResult where
  accepted : Bool
  score : ℝ
  phoneme_score : Option ℚ
  passphrase_accepted : Option Bool

/-- Per-instance state of `PassphraseAuthVerifier`: the enrolled embedding
and the optional reference phoneme sequence captured at creation. -/
structure VerifierState where
  embedding : List ℝ
  phoneme : Option (List String)

open Classical in
/-- Embedding of `PassphraseAuthVerifier.verify`, given the feature-pipeline
output `(test_embedding, test_phonemes)` of a run that reached scoring.
`auth` is the configurator state at call time (the Python instance holds a
reference, not a copy). -/
noncomputable def verify (auth : PassphraseAuth) (v : VerifierState)
    (test_embedding : List ℝ) (test_phonemes : List String) : VerificationResult :=
  let score := cosine_similarity v.embedding test_embedding
  let speaker_accepted : Bool := decide (auth.threshold ≤ score)
  match v.phoneme, auth.phoneme_threshold with
  | some ref, some τ =>
    let phoneme_score := normalized_edit_distance ref test_phonemes
    let passphrase_accepted : Bool := decide (phoneme_score ≤ τ)
    ⟨speaker_accepted && passphrase_accepted, score, some phoneme_score,
      some passphrase_accepted⟩
  | _, _ => ⟨speaker_accepted, score, none, none⟩

/-- Per-instance accumulator of `PassphraseAuthEnroller`. -/
structure EnrollerState where
  embeddings : List (List ℝ)
  phoneme_samples : List (List String)

/-- Initial accumulator of a freshly created Enroller. -/
def enroller_init : EnrollerState := ⟨[], []⟩

/-- Embedding of `PassphraseAuthEnroller.add_sample`: run the feature
pipeline first; on failure the error propagates and the accumulator is
untouched, otherwise both lists are appended to. -/
def add_sample {ι ε : Type*} (extract_passphrase : ι → Except ε (List ℝ × List String))
    (st : EnrollerState) (audio : ι) : Except ε Unit × EnrollerState :=
  match extract_passphrase audio with
  | .error e => (.error e, st)
  | .ok result =>
    (.ok (), ⟨st.embeddings ++ [result.1], st.phoneme_samples ++ [result.2]⟩)

/-- Element-wise arithmetic mean of the accumulated embeddings
(`np.mean(..., axis=0)` over a rectangular array). -/
noncomputable def mean_embedding (embeddings : List (List ℝ)) : List ℝ :=
  (List.range (embeddings.headD []).length).map fun i =>
    ((embeddings.map fun e => e.getD i 0).sum) / (embeddings.length : ℝ)

inductive EnrollError
  | noSamples
  | phonemeInconsistency (i j : ℕ) (d : ℚ)

/-- Embedding of `Phoneme.select_reference` from `phoneme_extractor.py`:
medoid of the samples under the pairwise normalized edit-distance matrix. -/
def select_reference (samples : List (List String)) : List String :=
  samples.getD (select_medoid (pairwise_distances samples)) []

/-- Embedding of `PassphraseAuthEnroller.enroll`: `ValueError` on an empty
accumulator, then the mean embedding, then (when the phoneme threshold
policy is active at call time) the consistency check followed by medoid
reference selection; with the policy inactive the reference is empty. -/
noncomputable def enroll (auth : PassphraseAuth) (st : EnrollerState) :
    Except EnrollError (List ℝ × List String) :=
  if st.embeddings.isEmpty then .error .noSamples
  else
    match auth.phoneme_threshold with
    | some τ =>
      match validate_phoneme_consistency st.phoneme_samples τ with
      | .error e => .error (.phonemeInconsistency e.1 e.2.1 e.2.2)
      | .ok _ => .ok (mean_embedding st.embeddings, select_reference st.phoneme_samples)
    | none => .ok (mean_embedding st.embeddings, [])

theorem enroll_policy_inactive (auth : PassphraseAuth) (st : EnrollerState)
    (h1 : st.embeddings ≠ []) (h2 : auth.phoneme_threshold = none) :
    enroll auth st = .ok (mean_embedding st.embeddings, []) := by
  unfold enroll
  rw [if_neg (by simpa using h1), h2]

theorem enroll_policy_active_ok (auth : PassphraseAuth) (st : EnrollerState)
    (τ : ℚ) (h1 : st.embeddings ≠ []) (h2 : auth.phoneme_threshold = some τ)
    (h3 : validate_phoneme_consistency st.phoneme_samples τ = .ok ()) :
    enroll auth st =
      .ok (mean_embedding st.embeddings, select_reference st.phoneme_samples) := by
  unfold enroll
  rw [if_neg (by simpa using h1), h2]
  simp [h3]

theorem enroll_policy_active_error (auth : PassphraseAuth) (st : EnrollerState)
    (τ : ℚ) (i j : ℕ) (dq : ℚ) (h1 : st.embeddings ≠ [])
    (h2 : auth.phoneme_threshold = some τ)
    (h3 : validate_phoneme_consistency st.phoneme_samples τ = .error (i, j, dq)) :
    enroll auth st = .error (.phonemeInconsistency i j dq) := by
  unfold enroll
  rw [if_neg (by simpa using h1), h2]
  simp [h3]

theorem enroll_empty (auth : PassphraseAuth) (st : EnrollerState)
    (h1 : st.embeddings = []) : enroll auth st = .error .noSamples := by
  unfold enroll
  rw [if_pos (by simpa using h1)]

/-! ## Claim theorems -/

/-- C5: for every pair of symbol sequences `a`, `b`,
`normalized_edit_distance a b` equals the Levenshtein distance with unit
insert/delete/substitute costs divided by `max (|a|) (|b|)`; it returns `0`
when both sequences are empty, `1` when exactly one is empty, always lies in
`[0, 1]`, and is symmetric in its arguments. -/
theorem claim_c5_normalized_edit_distance {α : Type} [DecidableEq α] :
    (∀ a b : List α, normalized_edit_distance a b =
      ((lev a b : ℕ) : ℚ) / ((max a.length b.length : ℕ) : ℚ)) ∧
    normalized_edit_distance ([] : List α) [] = 0 ∧
    (∀ a : List α, a ≠ [] →
      normalized_edit_distance a [] = 1 ∧ normalized_edit_distance [] a = 1) ∧
    (∀ a b : List α,
      0 ≤ normalized_edit_distance a b ∧ normalized_edit_distance a b ≤ 1) ∧
    (∀ a b : List α, normalized_edit_distance a b = normalized_edit_distance b a) := by
  refine ⟨fun a b => normalized_edit_distance_eq a b, ?_, ?_, ?_, ?_⟩
  · rw [normalized_edit_distance_eq]
    simp [lev]
  · intro a ha
    exact ⟨normalized_edit_distance_nil_right a ha, normalized_edit_distance_nil_left a ha⟩
  · intro a b
    exact ⟨normalized_edit_distance_nonneg a b, normalized_edit_distance_le_one a b⟩
  · intro a b
    exact normalized_edit_distance_symm a b

/-- Witness for C5 at a concrete input. -/
theorem claim_c5_witness :
    (["a"] : List String) ≠ [] ∧
    normalized_edit_distance (["a"] : List String) [] = 1 ∧
    normalized_edit_distance ([] : List String) ["a"] = 1 :=
  ⟨by simp, (claim_c5_normalized_edit_distance.2.2.1 ["a"] (by simp)).1,
    (claim_c5_normalized_edit_distance.2.2.1 ["a"] (by simp)).2⟩

/-- C7: for every nonempty distance matrix, `select_medoid` returns the
smallest index minimizing the row sum; ties go to the lowest index. -/
theorem claim_c7_select_medoid (distances : List (List ℚ)) (h : distances ≠ []) :
    select_medoid distances < distances.length ∧
    (∀ j, j < distances.length →
      (distances.getD (select_medoid distances) []).sum ≤ (distances.getD j []).sum) ∧
    (∀ j, j < select_medoid distances →
      (distances.getD (select_medoid distances) []).sum < (distances.getD j []).sum) := by
  match distances, h with
  | row :: rest, _ =>
    have hstep : select_medoid (row :: rest) = medoidGo 1 0 (some row.sum) rest := rfl
    rcases medoidGo_spec rest 1 0 row.sum with ⟨heq, hmin⟩ | ⟨k, hk, heq, hval, hbefore, hafter⟩
    · rw [hstep, heq]
      refine ⟨by simp, ?_, by omega⟩
      intro j hj
      rcases Nat.eq_zero_or_pos j with rfl | hjpos
      · exact le_refl _
      · obtain ⟨j', rfl⟩ : ∃ j', j = j' + 1 := ⟨j - 1, by omega⟩
        simpa using hmin j' (by simpa using hj)
    · rw [hstep, heq]
      have hk1 : (1 : ℕ) + k = k + 1 := by omega
      refine ⟨by simp; omega, ?_, ?_⟩
      · intro j hj
        rw [hk1]
        simp only [List.getD_cons_succ]
        rcases Nat.eq_zero_or_pos j with rfl | hjpos
        · simpa using le_of_lt hval
        · obtain ⟨j', rfl⟩ : ∃ j', j = j' + 1 := ⟨j - 1, by omega⟩
          simp only [List.getD_cons_succ]
          rcases lt_trichotomy j' k with hc | rfl | hc
          · exact le_of_lt (hbefore j' hc)
          · exact le_refl _
          · exact hafter j' hc (by simpa using hj)
      · intro j hj
        rw [hk1]
        simp only [List.getD_cons_succ]
        rcases Nat.eq_zero_or_pos j with rfl | hjpos
        · simpa using hval
        · obtain ⟨j', rfl⟩ : ∃ j', j = j' + 1 := ⟨j - 1, by omega⟩
          simp only [List.getD_cons_succ]
          exact hbefore j' (by omega)

/-- Witness for C7 at a concrete input. -/
theorem claim_c7_witness :
    ([[(0 : ℚ)]] : List (List ℚ)) ≠ [] ∧
    (select_medoid [[(0 : ℚ)]] < ([[(0 : ℚ)]] : List (List ℚ)).length ∧
      ((∀ j, j < ([[(0 : ℚ)]] : List (List ℚ)).length →
        ([[(0 : ℚ)]].getD (select_medoid [[(0 : ℚ)]]) []).sum ≤
          ([[(0 : ℚ)]].getD j []).sum) ∧
      (∀ j, j < select_medoid [[(0 : ℚ)]] →
        ([[(0 : ℚ)]].getD (select_medoid [[(0 : ℚ)]]) []).sum <
          ([[(0 : ℚ)]].getD j []).sum))) :=
  ⟨by simp, claim_c7_select_medoid [[(0 : ℚ)]] (by simp)⟩

/-- C8: for every 192-dimensional float32 embedding (modelled by its 32-bit
patterns), deserialisation inverts serialisation element-wise, and the
serialised form is exactly `4 * 192 = 768` bytes with no header. -/
theorem claim_c8_embedding_serialization (values : List ℕ)
    (hw : ∀ w ∈ values, w < 2 ^ 32) (hd : values.length = 192) :
    embedding_from_bytes (embedding_to_bytes values) = some values ∧
    (embedding_to_bytes values).length = 768 :=
  ⟨embedding_roundtrip values hw, by rw [embedding_to_bytes_length, hd]⟩

set_option maxRecDepth 16384 in
/-- Witness for C8 at a concrete input. -/
theorem claim_c8_witness :
    (∀ w ∈ List.replicate 192 1, w < 2 ^ 32) ∧
    (List.replicate 192 1).length = 192 ∧
    embedding_from_bytes (embedding_to_bytes (List.replicate 192 1)) =
      some (List.replicate 192 1) ∧
    (embedding_to_bytes (List.replicate 192 1)).length = 768 :=
  ⟨by decide, by decide,
    (claim_c8_embedding_serialization _ (by decide) (by decide)).1,
    (claim_c8_embedding_serialization _ (by decide) (by decide)).2⟩

/-- C10 (implicit): `from_bytes` performs no length or dimension validation —
for every byte string whose length is a multiple of 4 (including the empty
string and lengths other than 768) it succeeds and yields `length / 4`
values; the 192-dimension invariant is not enforced at deserialisation. -/
theorem claim_c10_from_bytes_no_validation (bs : List ℕ) (h : bs.length % 4 = 0) :
    ∃ ws, embedding_from_bytes bs = some ws ∧ ws.length = bs.length / 4 := by
  obtain ⟨ws, hws, hlen⟩ := embedding_from_bytes_total (bs.length / 4) bs (by omega)
  exact ⟨ws, hws, by omega⟩

/-- Witness for C10 at a concrete 8-byte input (not 768 bytes: a 2-element
result is accepted). -/
theorem claim_c10_witness :
    ([1, 2, 3, 4, 5, 6, 7, 8] : List ℕ).length % 4 = 0 ∧
    ∃ ws, embedding_from_bytes [1, 2, 3, 4, 5, 6, 7, 8] = some ws ∧
      ws.length = ([1, 2, 3, 4, 5, 6, 7, 8] : List ℕ).length / 4 :=
  ⟨by decide, claim_c10_from_bytes_no_validation [1, 2, 3, 4, 5, 6, 7, 8] (by decide)⟩

/-- C9 counterexample: on empty audio with a positive minimum duration the
call fails with `EmptyAudio`, not `InsufficientDuration`, even though
`len(pcm)/sample_rate < min_seconds` holds — so "fails with
`InsufficientDuration` iff `len(pcm)/sample_rate < min_seconds`" is false as
stated. -/
theorem claim_c9_counterexample :
    ¬ (failsInsufficientDuration
        (validate_audio ⟨[], 16000⟩ (1 / 2)) = true ↔
      ((([] : List ℤ).length : ℚ) / (16000 : ℚ) < 1 / 2)) := by
  intro hiff
  have hlt : ((([] : List ℤ).length : ℚ) / (16000 : ℚ) < 1 / 2) := by norm_num
  have hfail := hiff.mpr hlt
  simp [validate_audio, failsInsufficientDuration] at hfail

/-- C9 (amended): `validate_audio` fails with `EmptyAudio` iff the sample
count is zero; it fails with `InsufficientDuration` (carrying the actual and
minimum durations) iff the sample count is nonzero and
`len(pcm)/sample_rate < min_seconds` (the empty check takes precedence); a
nonempty input whose duration is at least — including exactly equal to —
`min_seconds` passes. -/
theorem claim_c9_validate_audio (audio : AudioData) (min_seconds : ℚ) :
    (validate_audio audio min_seconds = .error .emptyAudio ↔
      audio.samples.length = 0) ∧
    (∀ d m, validate_audio audio min_seconds = .error (.insufficientDuration d m) ↔
      (audio.samples.length ≠ 0 ∧
        (audio.samples.length : ℚ) / audio.sample_rate < min_seconds ∧
        d = (audio.samples.length : ℚ) / audio.sample_rate ∧ m = min_seconds)) ∧
    (validate_audio audio min_seconds = .ok () ↔
      (audio.samples.length ≠ 0 ∧
        min_seconds ≤ (audio.samples.length : ℚ) / audio.sample_rate)) := by
  unfold validate_audio
  by_cases h1 : audio.samples.length = 0
  · simp [h1]
  · by_cases h2 : (audio.samples.length : ℚ) / audio.sample_rate < min_seconds
    · refine ⟨by simp [h1, h2], ?_, by simp [h1, h2, not_le.mpr h2]⟩
      intro d m
      simp only [if_neg h1, if_pos h2]
      constructor
      · intro he
        simp only [Except.error.injEq,
          AudioValidationError.insufficientDuration.injEq] at he
        exact ⟨h1, h2, he.1.symm, he.2.symm⟩
      · rintro ⟨-, -, rfl, rfl⟩
        rfl
    · refine ⟨by simp [h1, h2], ?_, by simp [h1, h2, not_lt.mp h2]⟩
      intro d m
      simp [h1, h2]

/-- Witness for C9 at a concrete input: one-sample audio at 16 kHz passes a
zero minimum. -/
theorem claim_c9_witness :
    (validate_audio ⟨[0], 16000⟩ 0 = .error .emptyAudio ↔
      (([(0 : ℤ)] : List ℤ).length = 0)) ∧
    (validate_audio ⟨[0], 16000⟩ 0 = .ok () ↔
      ((([(0 : ℤ)] : List ℤ).length ≠ 0) ∧
        (0 : ℚ) ≤ ((([(0 : ℤ)] : List ℤ).length : ℚ) / (16000 : ℚ)))) :=
  ⟨(claim_c9_validate_audio ⟨[0], 16000⟩ 0).1,
    (claim_c9_validate_audio ⟨[0], 16000⟩ 0).2.2⟩

/-- C6: a failing `add_sample` leaves the Enroller's accumulator unchanged,
and the embedding and phoneme-sample lists have equal length after every
operation (initially, and preserved by `add_sample`, succeeding or not). -/
theorem claim_c6_add_sample_failure {ι ε : Type*}
    (extract_passphrase : ι → Except ε (List ℝ × List String))
    (st : EnrollerState) (audio : ι) :
    (∀ e, (add_sample extract_passphrase st audio).1 = .error e →
      (add_sample extract_passphrase st audio).2 = st) ∧
    (st.embeddings.length = st.phoneme_samples.length →
      (add_sample extract_passphrase st audio).2.embeddings.length =
        (add_sample extract_passphrase st audio).2.phoneme_samples.length) ∧
    enroller_init.embeddings.length = enroller_init.phoneme_samples.length := by
  refine ⟨?_, ?_, rfl⟩
  · intro e he
    cases hres : extract_passphrase audio with
    | error e' => simp [add_sample, hres]
    | ok r =>
      rw [add_sample, hres] at he
      simp at he
  · intro hlen
    cases hres : extract_passphrase audio with
    | error e' => simpa [add_sample, hres] using hlen
    | ok r => simp [add_sample, hres, hlen]

/-- Witness for C6 at a concrete input: a pipeline that always fails leaves
the fresh accumulator untouched. -/
theorem claim_c6_witness :
    (add_sample (fun _ : Unit => (.error () : Except Unit (List ℝ × List String)))
        enroller_init ()).1 = .error () ∧
    (add_sample (fun _ : Unit => (.error () : Except Unit (List ℝ × List String)))
        enroller_init ()).2 = enroller_init ∧
    enroller_init.embeddings.length = enroller_init.phoneme_samples.length :=
  ⟨rfl,
    (claim_c6_add_sample_failure (fun _ : Unit =>
      (.error () : Except Unit (List ℝ × List String))) enroller_init ()).1 () rfl,
    (claim_c6_add_sample_failure (fun _ : Unit =>
      (.error () : Except Unit (List ℝ × List String))) enroller_init ()).2.2⟩

/-- C1: for every verification run that reaches scoring, `speaker_accepted`
holds iff the cosine similarity of the enrolled and test embeddings is at
least the cosine threshold (inclusive); when the phonetic policy is active
and the verifier carries a reference phoneme sequence, `passphrase_accepted`
holds iff the normalized edit distance of the reference and test phoneme
sequences is at most the phoneme threshold (inclusive), `accepted` is their
conjunction and all four fields are emitted; otherwise `accepted` equals
`speaker_accepted` and only the first two fields carry values. -/
theorem claim_c1_verify_decision (auth : PassphraseAuth) (v : VerifierState)
    (test_embedding : List ℝ) (test_phonemes : List String) :
    (∀ ref τ, v.phoneme = some ref → auth.phoneme_threshold = some τ →
      ∃ sb pb : Bool,
        verify auth v test_embedding test_phonemes =
          ⟨sb && pb, cosine_similarity v.embedding test_embedding,
            some (normalized_edit_distance ref test_phonemes), some pb⟩ ∧
        (sb = true ↔ auth.threshold ≤ cosine_similarity v.embedding test_embedding) ∧
        (pb = true ↔ normalized_edit_distance ref test_phonemes ≤ τ)) ∧
    ((v.phoneme = none ∨ auth.phoneme_threshold = none) →
      ∃ sb : Bool,
        verify auth v test_embedding test_phonemes =
          ⟨sb, cosine_similarity v.embedding test_embedding, none, none⟩ ∧
        (sb = true ↔ auth.threshold ≤ cosine_similarity v.embedding test_embedding)) := by
  constructor
  · intro ref τ href hτ
    unfold verify
    rw [href, hτ]
    exact ⟨_, _, rfl, by simp, by simp⟩
  · intro hcase
    rcases hcase with hnone | hnone
    · unfold verify
      rw [hnone]
      exact ⟨_, rfl, by simp⟩
    · cases hv : v.phoneme with
      | none =>
        unfold verify
        rw [hv]
        exact ⟨_, rfl, by simp⟩
      | some ref =>
        unfold verify
        rw [hv, hnone]
        exact ⟨_, rfl, by simp⟩

/-- Witness for C1 at a concrete input with the phonetic policy active. -/
theorem claim_c1_witness :
    (⟨[(1 : ℝ)], some ["a"]⟩ : VerifierState).phoneme = some ["a"] ∧
    (⟨(1 : ℝ) / 2, 3, none, some (3 / 10)⟩ : PassphraseAuth).phoneme_threshold =
      some (3 / 10) ∧
    ∃ sb pb : Bool,
      verify ⟨(1 : ℝ) / 2, 3, none, some (3 / 10)⟩ ⟨[(1 : ℝ)], some ["a"]⟩
          [(1 : ℝ)] ["a"] =
        ⟨sb && pb, cosine_similarity [(1 : ℝ)] [(1 : ℝ)],
          some (normalized_edit_distance ["a"] ["a"]), some pb⟩ ∧
      (sb = true ↔ (1 : ℝ) / 2 ≤ cosine_similarity [(1 : ℝ)] [(1 : ℝ)]) ∧
      (pb = true ↔ normalized_edit_distance ["a"] ["a"] ≤ 3 / 10) :=
  ⟨rfl, rfl,
    (claim_c1_verify_decision ⟨(1 : ℝ) / 2, 3, none, some (3 / 10)⟩
      ⟨[(1 : ℝ)], some ["a"]⟩ [(1 : ℝ)] ["a"]).1 ["a"] (3 / 10) rfl rfl⟩

/-- Cosine similarity of the singleton unit vectors evaluates to `1`. -/
theorem cosine_similarity_single_one : cosine_similarity [(1 : ℝ)] [(1 : ℝ)] = 1 := by
  unfold cosine_similarity
  norm_num [Real.sqrt_one]

/-- Two configurator states differing only in the cosine threshold produce
different verification results on the same verifier state and input. -/
theorem verify_threshold_differs :
    verify ⟨(1 : ℝ) / 2, 3, none, none⟩ ⟨[(1 : ℝ)], none⟩ [(1 : ℝ)] [] ≠
      verify ⟨(2 : ℝ), 3, none, none⟩ ⟨[(1 : ℝ)], none⟩ [(1 : ℝ)] [] := by
  have h1 : (verify ⟨(1 : ℝ) / 2, 3, none, none⟩ ⟨[(1 : ℝ)], none⟩
      [(1 : ℝ)] []).accepted = true := by
    unfold verify
    simp only [cosine_similarity_single_one]
    norm_num
  have h2 : (verify ⟨(2 : ℝ), 3, none, none⟩ ⟨[(1 : ℝ)], none⟩
      [(1 : ℝ)] []).accepted = false := by
    unfold verify
    simp only [cosine_similarity_single_one]
    norm_num
  intro heq
  rw [heq, h2] at h1
  exact Bool.false_ne_true h1

/-- C3 counterexample: the Verifier stores a reference to the configurator,
not a copy of the policy — with the same verifier state and input, two
configurator states that differ only in the cosine threshold yield different
`verify` results, so a post-creation policy mutation does change behaviour. -/
theorem claim_c3_counterexample :
    verify ⟨(1 : ℝ) / 2, 3, none, none⟩ ⟨[(1 : ℝ)], none⟩ [(1 : ℝ)] [] ≠
      verify ⟨(2 : ℝ), 3, none, none⟩ ⟨[(1 : ℝ)], none⟩ [(1 : ℝ)] [] :=
  verify_threshold_differs

/-- C3 (amended): Enroller and Verifier instances hold a reference to the
configurator and read its policy at call time, so mutating the
configurator's policy thresholds after creation can change the results of
subsequent calls: there are two configurator states differing only in a
threshold under which the same verifier state and input verify
differently. -/
theorem claim_c3_policy_reference :
    ∃ (a₁ a₂ : PassphraseAuth) (v : VerifierState) (e : List ℝ) (p : List String),
      a₁.min_speech_seconds = a₂.min_speech_seconds ∧
      a₁.min_unique_phonemes = a₂.min_unique_phonemes ∧
      a₁.phoneme_threshold = a₂.phoneme_threshold ∧
      a₁.threshold ≠ a₂.threshold ∧
      verify a₁ v e p ≠ verify a₂ v e p :=
  ⟨⟨(1 : ℝ) / 2, 3, none, none⟩, ⟨(2 : ℝ), 3, none, none⟩, ⟨[(1 : ℝ)], none⟩,
    [(1 : ℝ)], [], rfl, rfl, rfl, by norm_num, verify_threshold_differs⟩

/-- Characterisation of the element-wise arithmetic mean over a nonempty
rectangular list of embeddings. -/
theorem mean_embedding_spec (es : List (List ℝ)) (d : ℕ) (hne : es ≠ [])
    (hd : ∀ e ∈ es, e.length = d) :
    (mean_embedding es).length = d ∧
    ∀ i, i < d → (mean_embedding es).getD i 0 =
      ((es.map fun e => e.getD i 0).sum) / (es.length : ℝ) := by
  have hhead : ((es.head?.getD [] : List ℝ)).length = d := by
    cases es with
    | nil => exact absurd rfl hne
    | cons e es' => simpa using hd e (List.mem_cons_self e es')
  constructor
  · simp [mean_embedding, hhead]
  · intro i hi
    unfold mean_embedding
    rw [List.getD_eq_getElem _ _ (by simp [hhead]; omega)]
    simp

/-- C2: `enroll` fails with `NoSamples` iff the accumulated embedding list is
empty; otherwise the artifact's embedding is the element-wise arithmetic
mean of the per-sample embeddings (not re-normalized); with the phonetic
policy active the consistency check runs on the phoneme list and, when it
passes, the reference phoneme sequence is the medoid of that list (a failed
check propagates as `PhonemeInconsistency`); with the policy inactive the
reference phoneme sequence is empty. -/
theorem claim_c2_enroll (auth : PassphraseAuth) (st : EnrollerState) :
    (enroll auth st = .error .noSamples ↔ st.embeddings = []) ∧
    (∀ d, st.embeddings ≠ [] → (∀ e ∈ st.embeddings, e.length = d) →
      ∀ r, enroll auth st = .ok r →
        r.1.length = d ∧
        ∀ i, i < d → r.1.getD i 0 =
          ((st.embeddings.map fun e => e.getD i 0).sum) / (st.embeddings.length : ℝ)) ∧
    (∀ τ, auth.phoneme_threshold = some τ → st.embeddings ≠ [] →
      (validate_phoneme_consistency st.phoneme_samples τ = .ok () →
        enroll auth st = .ok (mean_embedding st.embeddings,
          st.phoneme_samples.getD
            (select_medoid (pairwise_distances st.phoneme_samples)) [])) ∧
      (∀ i j dq,
        validate_phoneme_consistency st.phoneme_samples τ = .error (i, j, dq) →
          enroll auth st = .error (.phonemeInconsistency i j dq))) ∧
    (auth.phoneme_threshold = none → st.embeddings ≠ [] →
      enroll auth st = .ok (mean_embedding st.embeddings, [])) := by
  by_cases hemp : st.embeddings = []
  · refine ⟨iff_of_true (enroll_empty auth st hemp) hemp, ?_, ?_, ?_⟩
    · intro d hne
      exact absurd hemp hne
    · intro τ hτ hne
      exact absurd hemp hne
    · intro hτ hne
      exact absurd hemp hne
  · have hok : ∀ r, enroll auth st = .ok r → r.1 = mean_embedding st.embeddings := by
      intro r hr
      cases hτ : auth.phoneme_threshold with
      | none =>
        rw [enroll_policy_inactive auth st hemp hτ] at hr
        simp only [Except.ok.injEq] at hr
        rw [← hr]
      | some τ0 =>
        cases hval : validate_phoneme_consistency st.phoneme_samples τ0 with
        | ok u =>
          rw [enroll_policy_active_ok auth st τ0 hemp hτ hval] at hr
          simp only [Except.ok.injEq] at hr
          rw [← hr]
        | error e =>
          rw [enroll_policy_active_error auth st τ0 e.1 e.2.1 e.2.2 hemp hτ
            (by simpa using hval)] at hr
          simp at hr
    refine ⟨?_, ?_, ?_, ?_⟩
    · apply iff_of_false ?_ hemp
      intro hr
      cases hτ : auth.phoneme_threshold with
      | none =>
        rw [enroll_policy_inactive auth st hemp hτ] at hr
        simp at hr
      | some τ0 =>
        cases hval : validate_phoneme_consistency st.phoneme_samples τ0 with
        | ok u =>
          rw [enroll_policy_active_ok auth st τ0 hemp hτ hval] at hr
          simp at hr
        | error e =>
          rw [enroll_policy_active_error auth st τ0 e.1 e.2.1 e.2.2 hemp hτ
            (by simpa using hval)] at hr
          simp at hr
    · intro d hne' hrect r hr
      have h1 := hok r hr
      rw [h1]
      exact mean_embedding_spec st.embeddings d hne' hrect
    · intro τ hτ hne'
      constructor
      · intro hval
        rw [enroll_policy_active_ok auth st τ hemp hτ hval]
        rfl
      · intro i j dq hval
        exact enroll_policy_active_error auth st τ i j dq hemp hτ hval
    · intro hτ hne'
      exact enroll_policy_inactive auth st hemp hτ

/-- Witness for C2 at a concrete input with the phonetic policy active and a
consistent phoneme list. -/
theorem claim_c2_witness :
    (⟨[[(1 : ℝ)], [(3 : ℝ)]], [["a"], ["a"]]⟩ : EnrollerState).embeddings ≠ [] ∧
    validate_phoneme_consistency [["a"], ["a"]] 1 = .ok () ∧
    enroll ⟨(1 : ℝ) / 2, 3, none, some 1⟩ ⟨[[(1 : ℝ)], [(3 : ℝ)]], [["a"], ["a"]]⟩ =
      .ok (mean_embedding [[(1 : ℝ)], [(3 : ℝ)]],
        [["a"], ["a"]].getD (select_medoid (pairwise_distances [["a"], ["a"]])) []) := by
  have hval : validate_phoneme_consistency [["a"], ["a"]] 1 = .ok () := by
    rw [validate_phoneme_consistency_ok_iff]
    intro i j hij hjn
    exact normalized_edit_distance_le_one _ _
  refine ⟨by simp, hval, ?_⟩
  exact ((claim_c2_enroll ⟨(1 : ℝ) / 2, 3, none, some 1⟩
    ⟨[[(1 : ℝ)], [(3 : ℝ)]], [["a"], ["a"]]⟩).2.2.1 1 rfl (by simp)).1 hval

/-- C4: the phoneme-consistency check succeeds iff every pair of enrollment
phoneme sequences is within the threshold under the pairwise normalized
edit-distance matrix, and fails with `PhonemeInconsistency (i, j, d)` exactly
on the first violating pair `(i < j)` in row-major scan order (by `i`, then
`j`). -/
theorem claim_c4_phoneme_consistency (samples : List (List String)) (τ : ℚ) :
    (validate_phoneme_consistency samples τ = .ok () ↔
      ∀ i j, i < j → j < samples.length →
        normalized_edit_distance (samples.getD i []) (samples.getD j []) ≤ τ) ∧
    (∀ i j v, validate_phoneme_consistency samples τ = .error (i, j, v) ↔
      (i < j ∧ j < samples.length ∧
        v = normalized_edit_distance (samples.getD i []) (samples.getD j []) ∧
        τ < v ∧
        ∀ p q, p < q → q < samples.length →
          (p < i ∨ (p = i ∧ q < j)) →
          normalized_edit_distance (samples.getD p []) (samples.getD q []) ≤ τ)) :=
  ⟨validate_phoneme_consistency_ok_iff samples τ,
    fun i j v => validate_phoneme_consistency_error_iff samples τ i j v⟩

/-- Concrete evaluation: the scan of `[["a"], ["a"], ["b"]]` at threshold
`1/2` reports the pair `(0, 2)` at distance `1`. -/
theorem validate_abb_eval :
    validate_phoneme_consistency [["a"], ["a"], ["b"]] (1 / 2) = .error (0, 2, 1) := by
  rw [validate_phoneme_consistency_error_iff]
  refine ⟨by norm_num, by norm_num, ?_, ?_, ?_⟩
  · simp only [List.getD_cons_zero, List.getD_cons_succ]
    rw [normalized_edit_distance_single_ne "a" "b" (by simp)]
  · norm_num
  · intro p q hpq hqn hlex
    have hp0 : p = 0 := by omega
    have hq1 : q = 1 := by
      rcases hlex with h | ⟨-, h⟩
      · omega
      · omega
    subst hp0; subst hq1
    simp only [List.getD_cons_zero, List.getD_cons_succ]
    rw [normalized_edit_distance_self]
    norm_num

/-- Witness for C4 at a concrete input: the first violating pair is
`(0, 2)` with distance `1`. -/
theorem claim_c4_witness :
    validate_phoneme_consistency [["a"], ["a"], ["b"]] (1 / 2) = .error (0, 2, 1) ∧
    (0 < 2 ∧ 2 < ([["a"], ["a"], ["b"]] : List (List String)).length ∧
      (1 : ℚ) = normalized_edit_distance
        ([["a"], ["a"], ["b"]].getD 0 []) ([["a"], ["a"], ["b"]].getD 2 []) ∧
      (1 : ℚ) / 2 < 1 ∧
      ∀ p q, p < q → q < ([["a"], ["a"], ["b"]] : List (List String)).length →
        (p < 0 ∨ (p = 0 ∧ q < 2)) →
        normalized_edit_distance
          ([["a"], ["a"], ["b"]].getD p []) ([["a"], ["a"], ["b"]].getD q []) ≤ 1 / 2) :=
  ⟨validate_abb_eval,
    ((claim_c4_phoneme_consistency [["a"], ["a"], ["b"]] (1 / 2)).2 0 2 1).mp
      validate_abb_eval⟩

end VoiceAuth
